import Mathlib

/-!
Shallow embedding of `theanets/recurrent.py` (class `Text`, function `batches`,
and `Classifier.predict_sequence`), together with theorems settling the
specification claims about this code.

Conventions of the embedding:
* Python strings become `List Char`; Python `int` codes become `Nat` (encode
  output) or `Int` (decode input, since Python list indexing accepts negative
  indices).
* numpy float arrays of probabilities become `List ℚ`; one-hot buffers become
  nested lists of `Nat` (entries 0/1).
* Fallible Python operations (failed assertions, `IndexError`, broadcasting
  errors of fancy indexing) are modelled with `Option`, `none` meaning the
  Python code raises.
* The stateful `numpy.random.RandomState` is abstracted into explicit draw
  functions: `offs : Nat → Nat` gives the value of the `rng.randint` call for
  each batch row, and `draw : Nat → Nat → Pdf → Option Nat` gives the outcome
  of `rng.multinomial(1, pdf).argmax(axis=-1)` at a given (time step, row),
  `none` modelling the `ValueError` raised on a badly normalized pdf.
-/

namespace Theanets

/-- A one-hot row of length `n` with a single 1 at position `k`
(the result of writing 1 into one cell of a numpy zero row). -/
def oneHotN (n k : Nat) : List Nat :=
  (List.range n).map (fun j => if j = k then 1 else 0)

/-- A zero row of length `n` (a slice of a fresh `np.zeros` array). -/
def zeroRow (n : Nat) : List Nat :=
  (List.range n).map (fun _ => 0)

/-- The state built by `Text.__init__`: the alphabet string `self.alpha`,
the `unknown` character and the cleaned corpus `self.text`. -/
structure Text where
  alpha : List Char
  unknown : Char
  text : List Char
deriving DecidableEq

/-- Alphabet inference of `Text.__init__` for `alpha=None`:
`''.join(sorted(set(char for char, count in collections.Counter(text).items()
if char != unknown and count >= min_count)))`. -/
def inferAlpha (text : List Char) (minCount : Nat) (unknown : Char) : List Char :=
  (text.dedup.filter
      (fun c => decide (c ≠ unknown ∧ minCount ≤ text.count c))).mergeSort
    (fun a b => decide (a ≤ b))

/-- The substitution performed by the cleaning regex of `Text.__init__` when
its pattern compiles: every character that is not in the alphabet is replaced
by `unknown`. -/
def cleanMap (alpha : List Char) (unknown : Char) (text : List Char) : List Char :=
  text.map (fun c => if c ∈ alpha then c else unknown)

/-- The cleaning step of `Text.__init__`:
`re.sub(r'[^{}]'.format(re.escape(self.alpha)), unknown, text)`.  With an
empty alphabet the built pattern is the malformed `[^]` (an unterminated
character set) and `re.sub` raises `re.error`, modelled by `none`; with a
nonempty alphabet the pattern compiles and every out-of-alphabet character is
replaced by `unknown`. -/
def clean (alpha : List Char) (unknown : Char) (text : List Char) : Option (List Char) :=
  if alpha.isEmpty then none
  else some (cleanMap alpha unknown text)

/-- `Text.__init__(text, alpha, min_count, unknown)`: choose the alphabet
(explicit, or inferred from the text), clean the text — which raises
`re.error` for an empty alphabet — and only then run
`assert unknown not in self.alpha`; `none` models either failure, in the
code's order (the regex error fires before the assert is reached). -/
def mkText (text : List Char) (alphaOpt : Option (List Char)) (minCount : Nat)
    (unknown : Char) : Option Text :=
  let alpha := match alphaOpt with
    | some a => a
    | none => inferAlpha text minCount unknown
  match clean alpha unknown text with
  | none => none
  | some cleaned =>
    if unknown ∈ alpha then none
    else some { alpha := alpha, unknown := unknown, text := cleaned }

/-- `self._rev_index = unknown + self.alpha`. -/
def Text.revIndex (t : Text) : List Char := t.unknown :: t.alpha

/-- Lookup in `self._fwd_index = dict(zip(self._rev_index, range(1 + len(self.alpha))))`:
with duplicate keys, a Python dict keeps the *last* pair, so this is the last
index of `c` in the list, if any. -/
def lastIdxOf (c : Char) : List Char → Option Nat
  | [] => none
  | x :: xs =>
    match lastIdxOf c xs with
    | some i => some (i + 1)
    | none => if x = c then some 0 else none

/-- `Text.encode`: `list(self._fwd_index.get(c, 0) for c in txt)`. -/
def Text.encode (t : Text) (txt : List Char) : List Nat :=
  txt.map (fun c => (lastIdxOf c t.revIndex).getD 0)

/-- Python sequence indexing `s[c]` for an `int` index `c`: negative indices
count from the end; an index out of `[-len(s), len(s))` raises `IndexError`. -/
def pyIndex (s : List Char) (c : Int) : Option Char :=
  let n : Int := s.length
  let j := if c < 0 then c + n else c
  if 0 ≤ j ∧ j < n then s[j.toNat]? else none

/-- `Text.decode`: `''.join(self._rev_index[c] for c in enc)`; `none` models
the `IndexError` raised by an out-of-range code. -/
def Text.decode (t : Text) (enc : List Int) : Option (List Char) :=
  enc.mapM (pyIndex t.revIndex)

/-- The corpus window `self.text[offset:offset + n]`. -/
def corpusWindow (t : Text) (offset n : Nat) : List Char :=
  (t.text.drop offset).take n

/-- `enc = self.encode(self.text[offset:offset + steps + 1])` in
`Text.classifier_batches.batch`. -/
def classifierRowEnc (t : Text) (steps offset : Nat) : List Nat :=
  t.encode (corpusWindow t offset (steps + 1))

/-- One row of the `inputs` array of `Text.classifier_batches.batch`:
`inputs[b, T, enc[:-1]] = 1` writes, for each time step `t < steps`, a 1 at
class position `enc[t]` of an all-zero row of width `1 + len(self.alpha)`. -/
def classifierRowInputs (t : Text) (steps offset : Nat) : List (List Nat) :=
  (classifierRowEnc t steps offset).dropLast.map (oneHotN (1 + t.alpha.length))

/-- One row of the `outputs` array of `Text.classifier_batches.batch`:
`outputs[b, T] = enc[1:]`. -/
def classifierRowOutputs (t : Text) (steps offset : Nat) : List Nat :=
  (classifierRowEnc t steps offset).drop 1

/-- The sample produced by one call of the closure returned by `batches`:
for each source array `a`, a fresh array whose row `i` is `a[j_i:j_i+steps]`,
where `j_i = offs i` is the value of `rng.randint(len(arrays[0]) - steps)`
drawn for row `i` (the same offset is used for every source array). -/
def batchesSample {α : Type} (arrays : List (List (List α))) (steps batchSize : Nat)
    (offs : Nat → Nat) : List (List (List (List α))) :=
  arrays.map (fun a => (List.range batchSize).map (fun i => (a.drop (offs i)).take steps))

/-- A probability distribution row, as returned by `predict_proba`. -/
abbrev Pdf := List ℚ

/-- The one-hot working buffer of `Classifier.predict_sequence`:
rows (batch) × time steps × classes, entries 0/1. -/
abbrev Buffer := List (List (List Nat))

/-- The buffer allocated by `Classifier.predict_sequence`:
`inputs = np.zeros((max(2, streams), offset + steps, self.layers[0].size), 'f')`
followed by `inputs[:, np.arange(offset), labels] = 1`, with
`offset = len(labels)`. -/
def initBuffer (labels : List Nat) (steps streams nClasses : Nat) : Buffer :=
  (List.range (max 2 streams)).map (fun _ =>
    (List.range (labels.length + steps)).map (fun t =>
      if t < labels.length then oneHotN nClasses (labels.getD t 0) else zeroRow nClasses))

/-- The slice `inputs[:i]` passed to `predict_proba` at step `i` of
`Classifier.predict_sequence`: on a 3-d numpy array this slices the FIRST
(batch) axis, keeping the first `i` stream rows with their full time extent. -/
def queryAt (inputs : Buffer) (i : Nat) : Buffer := inputs.take i

/-- Refinement reference, following the spec's words (§4.5: "invoke the
probability-query capability on the buffer truncated to time steps [0, i)"):
the buffer with every stream row truncated to its first `i` time steps. -/
def specTimeTruncated (inputs : Buffer) (i : Nat) : Buffer :=
  inputs.map (fun row => row.take i)

/-- First index of a maximal element, i.e. `np.argmax`, as index/value pair. -/
def argmaxAux : List ℚ → Option (Nat × ℚ)
  | [] => none
  | q :: l =>
    match argmaxAux l with
    | none => some (0, q)
    | some (j, m) => if q < m then some (j + 1, m) else some (0, q)

/-- `np.argmax` on a 1-d array (`argmax(axis=-1)` of the pdf). -/
def argmaxIdx (l : List ℚ) : Nat :=
  ((argmaxAux l).map Prod.fst).getD 0

/-- The body of the per-row loop of `Classifier.predict_sequence`:
`try: c = rng.multinomial(1, pdf).argmax(axis=-1) except ValueError: c = pdf.argmax(axis=-1)`.
`drawRow pdf = none` models the multinomial raising `ValueError`; the fallback
is the greedy `argmax` of the same pdf. -/
def chooseChar (drawRow : Pdf → Option Nat) (pdf : Pdf) : Nat :=
  match drawRow pdf with
  | some c => c
  | none => argmaxIdx pdf

/-- The sequential loop `for pdf in ...: ... chars.append(int(c))`, with `r`
the index of the next row (threading the advancing rng state by row index). -/
def stepCharsAux (draw : Nat → Pdf → Option Nat) (r : Nat) : List Pdf → List Nat
  | [] => []
  | pdf :: rest => chooseChar (draw r) pdf :: stepCharsAux draw (r + 1) rest

/-- The list `chars` built during one generation step of
`Classifier.predict_sequence`, one entry per row of the pdf batch. -/
def stepChars (draw : Nat → Pdf → Option Nat) (pdfs : List Pdf) : List Nat :=
  stepCharsAux draw 0 pdfs

/-- Write a 1 into position `(i, c)` of one stream row (time × classes). -/
def setHot (row : List (List Nat)) (i c : Nat) : List (List Nat) :=
  row.mapIdx (fun tt v => if tt = i then v.mapIdx (fun k x => if k = c then 1 else x) else v)

/-- `inputs[np.arange(batch), i, chars] = 1`: numpy fancy indexing pairs row
`r` with `chars[r]` when `len(chars) == batch`, broadcasts a single char to
every row when `len(chars) == 1`, and raises a broadcasting `ValueError`
otherwise (modelled by `none`). -/
def writeBack (inputs : Buffer) (i : Nat) (chars : List Nat) : Option Buffer :=
  if chars.length = inputs.length then
    some (inputs.mapIdx (fun r row => setHot row i (chars.getD r 0)))
  else if chars.length = 1 then
    some (inputs.map (fun row => setHot row i (chars.getD 0 0)))
  else none

/-- One yielded element: `chars[0] if streams == 1 else chars`. -/
abbrev Yield := Sum Nat (List Nat)

/-- The generation loop `for i in range(offset, offset + steps)` of
`Classifier.predict_sequence`, parametrized by the probability-query
capability `pp` (`self.predict_proba`) and the multinomial outcome `draw`.
Per step: query `pp` on `inputs[:i]`, take `[:, -1]` (the last time step of
each returned row), choose one symbol per row (sampling with greedy
fallback), write the chosen symbols back at time `i`, and yield
`chars[0] if streams == 1 else chars`. `none` models an uncaught runtime
error (fancy-indexing broadcast failure, or `chars[0]` on an empty list). -/
def genSteps (pp : Buffer → List (List Pdf)) (draw : Nat → Nat → Pdf → Option Nat)
    (streams : Nat) : Nat → Buffer → Nat → Option (List Yield)
  | 0, _, _ => some []
  | n + 1, inputs, i =>
    let pdfs := (pp (queryAt inputs i)).map (fun row => row.getLastD [])
    let chars := stepChars (draw i) pdfs
    match writeBack inputs i chars with
    | none => none
    | some inputs2 =>
      if streams = 1 ∧ chars.length = 0 then none
      else
        let y : Yield := if streams = 1 then Sum.inl (chars.getD 0 0) else Sum.inr chars
        (genSteps pp draw streams n inputs2 (i + 1)).map (fun rest => y :: rest)

/-- `Classifier.predict_sequence(labels, steps, streams, rng)`, with the
network's `predict_proba` abstracted as `pp` and the rng draws as `draw`:
the list of all yielded elements (or `none` on an uncaught runtime error). -/
def predictSequence (pp : Buffer → List (List Pdf)) (draw : Nat → Nat → Pdf → Option Nat)
    (labels : List Nat) (steps streams nClasses : Nat) : Option (List Yield) :=
  genSteps pp draw streams steps (initBuffer labels steps streams nClasses) labels.length

/-- A model whose `predict_proba` returns the same distribution `pdf` at every
row and every time step of its input. -/
def uniformPP (pdf : Pdf) : Buffer → List (List Pdf) :=
  fun buf => buf.map (fun row => row.map (fun _ => pdf))

/-- A multinomial draw that always succeeds and returns class 0. -/
def drawTop : Nat → Nat → Pdf → Option Nat := fun _ _ _ => some 0

/-- A degenerate distribution putting all mass on class 0. -/
def pdfUnit : Pdf := [(1 : ℚ), 0]

/-- A small concrete `Text` over the alphabet "ab" with the default unknown
character, used as concrete input for counterexamples and witnesses. -/
def sampleText : Text :=
  { alpha := ['a', 'b'], unknown := Char.ofNat 0, text := ['a', 'b', 'a', 'b'] }

/-- The same `Text` with the last character of the corpus removed (used to
express that the final character never enters a classifier batch). -/
def truncLast (t : Text) : Text :=
  { alpha := t.alpha, unknown := t.unknown, text := t.text.dropLast }

/-- A concrete cleaned `Text` (the result of `mkText "acb" "ab" 2 '\x00'`). -/
def sampleText2 : Text :=
  { alpha := ['a', 'b'], unknown := Char.ofNat 0, text := ['a', Char.ofNat 0, 'b'] }

/-- Concrete pdf batch used as witness input. -/
def pdfsW : List Pdf := [[(1 : ℚ)/4, 3/4], [(1 : ℚ)/2, 1/2]]

/-- Concrete draw outcome: the multinomial raises on row 0, succeeds on the
others. -/
def drawW : Nat → Pdf → Option Nat := fun r _ => if r = 0 then none else some 1

/-! ## Theorems -/

/-- C1: the claim says the probability query at generated step `i` receives the
one-hot buffer truncated to time steps `[0, i)`.  The code instead evaluates
`inputs[:i]`, which truncates the *batch* (stream-row) axis.  Concretely, with
seed `[1]`, `steps = 1`, `streams = 1` and 3 classes, at the first generated
step `i = 1` the query receives a single stream row over the full time extent
(including the still-zero future step), which differs from the time-truncated
buffer prescribed by the claim. -/
theorem predict_sequence_query_slices_batch_axis :
    queryAt (initBuffer [1] 1 1 3) 1 ≠ specTimeTruncated (initBuffer [1] 1 1 3) 1 ∧
    queryAt (initBuffer [1] 1 1 3) 1 = [[oneHotN 3 1, zeroRow 3]] ∧
    specTimeTruncated (initBuffer [1] 1 1 3) 1 = [[oneHotN 3 1], [oneHotN 3 1]] := by
  decide

/-- C8: the claim says that with `streams = k > 1` every yielded element is a
list of exactly `k` symbols.  Because the code queries `predict_proba` on
`inputs[:i]` (a batch-axis slice), the number of symbols produced at step `i`
is `min i (max 2 streams)`: with `streams = 3`, seed `[0]`, `steps = 1` and a
model answering every query, the single yielded element is a list of length 1,
not 3. -/
theorem predict_sequence_yield_length_mismatch :
    predictSequence (uniformPP pdfUnit) drawTop [0] 1 3 2 = some [Sum.inr [0]] ∧
    ([0] : List Nat).length ≠ 3 := by
  decide

/-- C2 counterexample: `-1` lies outside `[0, alphabet_size]`, yet `decode`
does not fail on it — Python list indexing accepts negative indices, so
`decode([-1])` returns the last alphabet symbol. -/
theorem decode_negative_code_succeeds :
    ((-1 : Int) < 0 ∨ (sampleText.alpha.length : Int) < (-1 : Int)) ∧
    sampleText.decode [(-1 : Int)] = some ['b'] := by
  decide

/-- Helper: `l[i]?` is `some` exactly when the index is in range. -/
theorem isSome_idx {α : Type} (l : List α) (i : Nat) :
    l[i]?.isSome = true ↔ i < l.length := by
  constructor
  · intro hs
    by_contra h
    rw [List.getElem?_eq_none (by omega)] at hs
    simp at hs
  · intro h
    simp [List.getElem?_eq_getElem h]

/-- C2 (amended): `decode` on a one-element code list succeeds exactly when
the code lies in `[-(alphabet_size + 1), alphabet_size]` (negative codes index
the reverse map from its end, Python-style) and fails outside that range; for
codes in `[0, alphabet_size]` it returns the reverse-map symbol at that
index. -/
theorem decode_singleton_range (t : Text) (c : Int) :
    ((t.decode [c]).isSome ↔
      (-(1 + (t.alpha.length : Int)) ≤ c ∧ c ≤ (t.alpha.length : Int))) ∧
    (0 ≤ c → c ≤ (t.alpha.length : Int) →
      t.decode [c] = some [t.revIndex.getD c.toNat t.unknown]) := by
  have hlen : t.revIndex.length = t.alpha.length + 1 := by simp [Text.revIndex]
  have hdec : t.decode [c] = (pyIndex t.revIndex c).map (fun s => [s]) := by
    cases h : pyIndex t.revIndex c <;>
      simp [Text.decode, List.mapM, List.mapM.loop, h]
  have hmap : (Option.map (fun s => [s]) (pyIndex t.revIndex c)).isSome
      = (pyIndex t.revIndex c).isSome := by
    cases pyIndex t.revIndex c <;> rfl
  constructor
  · rw [hdec, hmap]
    by_cases hc : c < 0
    · simp only [pyIndex, hc, if_true]
      by_cases hr : 0 ≤ c + (t.revIndex.length : Int) ∧
          c + (t.revIndex.length : Int) < (t.revIndex.length : Int)
      · rw [if_pos hr, isSome_idx]
        omega
      · rw [if_neg hr]
        simp only [Option.isSome_none, Bool.false_eq_true, false_iff]
        omega
    · simp only [pyIndex, hc, if_false]
      by_cases hr : 0 ≤ c ∧ c < (t.revIndex.length : Int)
      · rw [if_pos hr, isSome_idx]
        omega
      · rw [if_neg hr]
        simp only [Option.isSome_none, Bool.false_eq_true, false_iff]
        omega
  · intro h0 h1
    rw [hdec]
    have hc : ¬ c < 0 := by omega
    have hr : 0 ≤ c ∧ c < (t.revIndex.length : Int) := by omega
    have hlt : c.toNat < t.revIndex.length := by omega
    simp only [pyIndex, hc, if_false]
    rw [if_pos hr, List.getElem?_eq_getElem hlt,
      List.getD_eq_getElem t.revIndex t.unknown hlt]
    simp

/-- Witness for C2's amended theorem at a concrete text and code. -/
theorem decode_singleton_range_witness :
    sampleText.decode [(1 : Int)] = some [sampleText.revIndex.getD 1 sampleText.unknown] :=
  (decode_singleton_range sampleText 1).2 (by decide) (by decide)

/-- Helper: a character that does not occur in the list has no last index. -/
theorem lastIdxOf_eq_none {c : Char} {l : List Char} (h : c ∉ l) :
    lastIdxOf c l = none := by
  induction l with
  | nil => rfl
  | cons x xs ih =>
    simp only [List.mem_cons, not_or] at h
    have hx : ¬ x = c := fun hx => h.1 hx.symm
    simp [lastIdxOf, ih h.2, hx]

/-- Helper: on a duplicate-free list, the last index of the `i`-th element is
`i`. -/
theorem lastIdxOf_get (l : List Char) (hnd : l.Nodup) (i : Nat) (h : i < l.length) :
    lastIdxOf l[i] l = some i := by
  induction l generalizing i with
  | nil => simp at h
  | cons x xs ih =>
    cases i with
    | zero =>
      have hx : x ∉ xs := (List.nodup_cons.mp hnd).1
      simp [lastIdxOf, lastIdxOf_eq_none hx]
    | succ j =>
      have hnd2 := (List.nodup_cons.mp hnd).2
      have hj : j < xs.length := by simpa using h
      simp [lastIdxOf, ih hnd2 j hj]

/-- Helper: `decode` on a singleton is the Python lookup of the single code. -/
theorem decode_singleton_eq (t : Text) (c : Int) :
    t.decode [c] = (pyIndex t.revIndex c).map (fun s => [s]) := by
  cases h : pyIndex t.revIndex c <;>
    simp [Text.decode, List.mapM, List.mapM.loop, h]

/-- Helper: Python indexing at a nonnegative in-range index is plain list
indexing. -/
theorem pyIndex_coe_nat (s : List Char) (c : Nat) (hc : c < s.length) :
    pyIndex s (c : Int) = some (s.get ⟨c, hc⟩) := by
  have hc0 : ¬ ((c : Int) < 0) := by omega
  have hr : 0 ≤ (c : Int) ∧ (c : Int) < (s.length : Int) := by omega
  have ht : (c : Int).toNat = c := by omega
  simp only [pyIndex]
  rw [if_neg hc0, if_pos hr, ht, List.getElem?_eq_getElem hc]
  simp [List.get_eq_getElem]

/-- C6: round-trip over valid codes — for every alphabet index whose reverse
map has distinct symbols (the data-model invariant) and every code
`c ∈ [0, alphabet_size]`, decoding `[c]` yields a symbol whose encoding is
`[c]` again. -/
theorem encode_decode_roundtrip (t : Text) (hnd : t.revIndex.Nodup) (c : Nat)
    (hc : c ≤ t.alpha.length) :
    ∃ s : Char, t.decode [(c : Int)] = some [s] ∧ t.encode [s] = [c] := by
  have hlen : t.revIndex.length = t.alpha.length + 1 := by simp [Text.revIndex]
  have hlt : c < t.revIndex.length := by omega
  refine ⟨t.revIndex.get ⟨c, hlt⟩, ?_, ?_⟩
  · rw [decode_singleton_eq, pyIndex_coe_nat t.revIndex c hlt]
    rfl
  · simp [Text.encode, List.get_eq_getElem, lastIdxOf_get t.revIndex hnd c hlt]

/-- Witness for C6 at a concrete text and the code 2. -/
theorem encode_decode_roundtrip_witness :
    sampleText.decode [((2 : Nat) : Int)] = some ['b'] ∧
    sampleText.encode ['b'] = [2] := by
  obtain ⟨s, h1, h2⟩ := encode_decode_roundtrip sampleText (by decide) 2 (by decide)
  have hx : sampleText.decode [((2 : Nat) : Int)] = some ['b'] := by decide
  have hs : s = 'b' := by
    have h3 := h1.symm.trans hx
    simpa using h3
  rw [hs] at h2
  exact ⟨hx, h2⟩

/-- Helper: the cleaning substitution is idempotent. -/
theorem clean_idem (alpha : List Char) (u : Char) (x : List Char) :
    cleanMap alpha u (cleanMap alpha u x) = cleanMap alpha u x := by
  simp only [cleanMap, List.map_map]
  apply List.map_congr_left
  intro c _
  simp only [Function.comp_apply]
  by_cases hca : c ∈ alpha
  · simp [hca]
  · simp only [hca, if_false]
    split <;> rfl

/-- Helper: the three outcomes of construction with an explicit alphabet, in
the code's order — regex error on an empty alphabet, assertion error when the
unknown symbol is in the alphabet, success otherwise. -/
theorem mkText_explicit (text : List Char) (alpha : List Char) (mc : Nat) (u : Char) :
    mkText text (some alpha) mc u =
      if alpha.isEmpty then none
      else if u ∈ alpha then none
      else some { alpha := alpha, unknown := u, text := cleanMap alpha u text } := by
  by_cases he : alpha.isEmpty <;> simp [mkText, clean, he]

/-- Helper: construction with an inferred alphabet is construction with the
inference's result as explicit alphabet. -/
theorem mkText_none_eq (text : List Char) (mc : Nat) (u : Char) :
    mkText text none mc u = mkText text (some (inferAlpha text mc u)) mc u := rfl

/-- C5: `Text` construction replaces exactly the raw characters outside
{alphabet ∪ unknown} by the unknown character (in-alphabet characters and
existing unknown characters are kept, order and length are preserved, since
the cleaned text is a pointwise map of the raw text), and the cleaning is
idempotent: re-constructing a `Text` from the cleaned text over the same
alphabet returns the identical `Text`. -/
theorem clean_replaces_exactly (raw : List Char) (alphaOpt : Option (List Char))
    (mc : Nat) (u : Char) (t : Text) (h : mkText raw alphaOpt mc u = some t) :
    t.text = raw.map (fun c => if c ∈ t.alpha ∨ c = u then c else u) ∧
    mkText t.text (some t.alpha) mc u = some t := by
  have hsplit : ∃ alpha, mkText raw alphaOpt mc u = mkText raw (some alpha) mc u := by
    cases alphaOpt with
    | some a => exact ⟨a, rfl⟩
    | none => exact ⟨inferAlpha raw mc u, rfl⟩
  obtain ⟨alpha, heq⟩ := hsplit
  rw [heq, mkText_explicit] at h
  by_cases he : alpha.isEmpty
  · rw [if_pos he] at h
    exact absurd h (by simp)
  · rw [if_neg he] at h
    by_cases hu : u ∈ alpha
    · rw [if_pos hu] at h
      exact absurd h (by simp)
    · rw [if_neg hu] at h
      have ht := Option.some.inj h
      subst ht
      constructor
      · show cleanMap alpha u raw = raw.map (fun c => if c ∈ alpha ∨ c = u then c else u)
        apply List.map_congr_left
        intro c _
        by_cases hca : c ∈ alpha
        · simp [hca]
        · by_cases hcu : c = u
          · subst hcu
            simp [hca]
          · simp [hca, hcu]
      · show mkText (cleanMap alpha u raw) (some alpha) mc u
          = some { alpha := alpha, unknown := u, text := cleanMap alpha u raw }
        rw [mkText_explicit, if_neg he, if_neg hu, clean_idem]

/-- Witness for C5 at a concrete raw text and explicit alphabet. -/
theorem clean_replaces_exactly_witness :
    sampleText2.text
      = ['a', 'c', 'b'].map
          (fun c => if c ∈ sampleText2.alpha ∨ c = Char.ofNat 0 then c else Char.ofNat 0) ∧
    mkText sampleText2.text (some sampleText2.alpha) 2 (Char.ofNat 0) = some sampleText2 :=
  clean_replaces_exactly ['a', 'c', 'b'] (some ['a', 'b']) 2 (Char.ofNat 0)
    sampleText2 (by decide)

/-- C10: when the alphabet is inferred (`alpha=None`) and the unknown symbol
is a single character, the `assert unknown not in self.alpha` in
`Text.__init__` can never fire: for every input text, min_count and unknown
symbol, the inference filters the unknown symbol out before building the
alphabet, so the assert condition is never true.  Construction can still fail
earlier — the cleaning regex raises `re.error` when the inferred alphabet is
empty — but whenever that step is passed (nonempty inferred alphabet),
construction succeeds: the assertion branch itself is unreachable. -/
theorem inferred_alphabet_assertion_safe (txt : List Char) (mc : Nat) (u : Char) :
    u ∉ inferAlpha txt mc u ∧
    (inferAlpha txt mc u ≠ [] → (mkText txt none mc u).isSome = true) := by
  have hu : u ∉ inferAlpha txt mc u := by
    intro hm
    rw [inferAlpha, List.mem_mergeSort, List.mem_filter, decide_eq_true_eq] at hm
    exact hm.2.1 rfl
  refine ⟨hu, fun hne => ?_⟩
  have he : (inferAlpha txt mc u).isEmpty = false := by
    cases hx : inferAlpha txt mc u
    · exact absurd hx hne
    · rfl
  rw [mkText_none_eq, mkText_explicit]
  simp [he, hu]

/-- Witness for C10: on the corpus "abab" with min_count 2, the inferred
alphabet is "ab" (nonempty), the assert condition is false, and construction
succeeds. -/
theorem inferred_alphabet_assertion_safe_witness :
    (Char.ofNat 0) ∉ inferAlpha ['a', 'b', 'a', 'b'] 2 (Char.ofNat 0) ∧
    (mkText ['a', 'b', 'a', 'b'] none 2 (Char.ofNat 0)).isSome = true := by
  have h := inferred_alphabet_assertion_safe ['a', 'b', 'a', 'b'] 2 (Char.ofNat 0)
  have hlen : (inferAlpha ['a', 'b', 'a', 'b'] 2 (Char.ofNat 0)).length = 2 := by
    rw [inferAlpha, List.length_mergeSort]
    decide
  refine ⟨h.1, h.2 fun hx => ?_⟩
  rw [hx] at hlen
  simp at hlen

/-- C3: for a valid batch offset, the encoded window of one classifier batch
row has `steps + 1` symbols; the one-hot input row covers its first `steps`
codes, the integer target row its last `steps` codes (a one-position-ahead
shift); consequently the target at time `t` is exactly the code one-hot
encoded in the input at time `t + 1` whenever `t + 1 < steps`. -/
theorem classifier_shift (t : Text) (steps offset : Nat)
    (h : offset + steps + 2 ≤ t.text.length) :
    (classifierRowEnc t steps offset).length = steps + 1 ∧
    classifierRowInputs t steps offset
      = ((classifierRowEnc t steps offset).take steps).map (oneHotN (1 + t.alpha.length)) ∧
    classifierRowOutputs t steps offset = (classifierRowEnc t steps offset).drop 1 ∧
    ∀ i : Nat, i + 1 < steps →
      (classifierRowInputs t steps offset)[i + 1]?
        = ((classifierRowOutputs t steps offset)[i]?).map (oneHotN (1 + t.alpha.length)) := by
  have hlen : (classifierRowEnc t steps offset).length = steps + 1 := by
    simp only [classifierRowEnc, Text.encode, corpusWindow, List.length_map,
      List.length_take, List.length_drop]
    omega
  refine ⟨hlen, ?_, rfl, ?_⟩
  · rw [classifierRowInputs, List.dropLast_eq_take, hlen]
    simp
  · intro i hi
    rw [classifierRowInputs, classifierRowOutputs, List.getElem?_map,
      List.dropLast_eq_take, hlen]
    simp only [Nat.add_sub_cancel]
    rw [List.getElem?_take, if_pos hi, List.getElem?_drop, Nat.add_comm 1 i]

/-- C9: valid classifier batch offsets satisfy
`offset ∈ [0, len(text) − steps − 2]`, and each drawn window covers indices
`[offset, offset + steps]` only, so the batch row built from the corpus is
identical to the one built from the corpus with its final character removed:
the last character never appears in any inputs or targets batch. -/
theorem last_char_never_sampled (t : Text) (steps offset : Nat)
    (h : offset < t.text.length - steps - 1) :
    classifierRowEnc t steps offset = classifierRowEnc (truncLast t) steps offset ∧
    classifierRowInputs t steps offset = classifierRowInputs (truncLast t) steps offset ∧
    classifierRowOutputs t steps offset = classifierRowOutputs (truncLast t) steps offset := by
  have hw : corpusWindow (truncLast t) offset (steps + 1) = corpusWindow t offset (steps + 1) := by
    simp only [corpusWindow, truncLast]
    apply List.ext_getElem?
    intro i
    rw [List.getElem?_take, List.getElem?_take]
    by_cases hi : i < steps + 1
    · rw [if_pos hi, if_pos hi, List.getElem?_drop, List.getElem?_drop,
        List.dropLast_eq_take, List.getElem?_take, if_pos (by omega)]
    · rw [if_neg hi, if_neg hi]
  have he : classifierRowEnc (truncLast t) steps offset = classifierRowEnc t steps offset := by
    rw [classifierRowEnc, hw]
    rfl
  exact ⟨he.symm, by rw [classifierRowInputs, classifierRowInputs, he]; rfl,
    by rw [classifierRowOutputs, classifierRowOutputs, he]⟩

/-- Witness for C3 at `sampleText`, `steps = 2`, `offset = 0`, time step 0. -/
theorem classifier_shift_witness :
    (classifierRowEnc sampleText 2 0).length = 2 + 1 ∧
    (classifierRowInputs sampleText 2 0)[0 + 1]?
      = ((classifierRowOutputs sampleText 2 0)[0]?).map (oneHotN (1 + sampleText.alpha.length)) := by
  have h := classifier_shift sampleText 2 0 (by decide)
  exact ⟨h.1, h.2.2.2 0 (by decide)⟩

/-- Witness for C9 at `sampleText`, `steps = 1`, `offset = 0`. -/
theorem last_char_never_sampled_witness :
    classifierRowEnc sampleText 1 0 = classifierRowEnc (truncLast sampleText) 1 0 ∧
    classifierRowInputs sampleText 1 0 = classifierRowInputs (truncLast sampleText) 1 0 ∧
    classifierRowOutputs sampleText 1 0 = classifierRowOutputs (truncLast sampleText) 1 0 :=
  last_char_never_sampled sampleText 1 0 (by decide)

/-- C4: one call of the sampler returned by `batches`, given the per-row
offsets drawn by `rng.randint(total_time - steps)` (so each offset lies in
`[0, total_time − steps)`): it returns one fresh batch per source array, each
batch holding `batch_size` rows, row `i` of the batch for source array `k`
being exactly that array's slice `[offs i, offs i + steps)` — the same offset
across all source arrays — of full length `steps`, with every time-row keeping
its source array's feature width. -/
theorem batches_aligned_windows {α : Type} (arrays : List (List (List α)))
    (steps batchSize T : Nat) (dims : Nat → Nat) (offs : Nat → Nat)
    (hT : ∀ a ∈ arrays, a.length = T)
    (hoffs : ∀ i, i < batchSize → offs i + steps < T)
    (hdims : ∀ k : Fin arrays.length, ∀ v ∈ arrays.get k, v.length = dims k.val) :
    (batchesSample arrays steps batchSize offs).length = arrays.length ∧
    ∀ k : Fin arrays.length, ∃ x,
      (batchesSample arrays steps batchSize offs)[k.val]? = some x ∧
      x.length = batchSize ∧
      ∀ i, i < batchSize →
        x[i]? = some (((arrays.get k).drop (offs i)).take steps) ∧
        (((arrays.get k).drop (offs i)).take steps).length = steps ∧
        ∀ v ∈ ((arrays.get k).drop (offs i)).take steps, v.length = dims k.val := by
  constructor
  · simp [batchesSample]
  · intro k
    refine ⟨(List.range batchSize).map
      (fun i => ((arrays.get k).drop (offs i)).take steps), ?_, by simp, ?_⟩
    · rw [batchesSample, List.getElem?_map, List.getElem?_eq_getElem k.isLt]
      simp [List.get_eq_getElem]
    · intro i hi
      have hlt := hoffs i hi
      have ha : (arrays.get k).length = T := hT _ (List.get_mem arrays k.val k.isLt)
      refine ⟨?_, ?_, ?_⟩
      · rw [List.getElem?_map, List.getElem?_range hi]
        rfl
      · rw [List.length_take, List.length_drop, ha]
        omega
      · intro v hv
        exact hdims k v (List.mem_of_mem_drop (List.mem_of_mem_take hv))

/-- Witness for C4 at one concrete source array of length 4, `steps = 2`,
`batch_size = 2`, offsets 0 and 1. -/
theorem batches_aligned_windows_witness :
    (batchesSample [[[(5 : Int)], [6], [7], [8]]] 2 2 (fun i => i)).length = 1 ∧
    (((([[[(5 : Int)], [6], [7], [8]]] :
        List (List (List Int))).get ⟨0, by decide⟩).drop 1).take 2).length = 2 := by
  have h := batches_aligned_windows [[[(5 : Int)], [6], [7], [8]]] 2 2 4 (fun _ => 1)
    (fun i => i) (by decide) (by decide) (by decide)
  obtain ⟨x, hx1, hx2, hx3⟩ := h.2 ⟨0, by decide⟩
  exact ⟨h.1, (hx3 1 (by decide)).2.1⟩

/-- Helper: indexing the sequential per-row loop of the sampler. -/
theorem stepCharsAux_idx (draw : Nat → Pdf → Option Nat) (r0 : Nat) (pdfs : List Pdf)
    (r : Nat) :
    (stepCharsAux draw r0 pdfs)[r]?
      = (pdfs[r]?).map (fun pdf => chooseChar (draw (r0 + r)) pdf) := by
  induction pdfs generalizing r0 r with
  | nil => simp [stepCharsAux]
  | cons p rest ih =>
    cases r with
    | zero => simp [stepCharsAux]
    | succ j =>
      have harith : r0 + 1 + j = r0 + (j + 1) := by omega
      rw [stepCharsAux]
      simp only [List.getElem?_cons_succ]
      rw [ih (r0 + 1) j, harith]

/-- Helper: the per-step loop emits one symbol per pdf row. -/
theorem stepChars_length (draw : Nat → Pdf → Option Nat) (pdfs : List Pdf) :
    (stepChars draw pdfs).length = pdfs.length := by
  suffices hgen : ∀ r0 l, (stepCharsAux draw r0 l).length = l.length from hgen 0 pdfs
  intro r0 l
  induction l generalizing r0 with
  | nil => rfl
  | cons p rest ih => simp [stepCharsAux, ih]

/-- C7: in one generation step, whenever the multinomial draw for a row raises
(`draw` returns `none` on that row's distribution), that row's symbol — and
only that row's — is replaced by the greedy `argmax` of the same distribution;
rows whose draw succeeds keep their drawn symbol, no error escapes, and one
symbol per row is still produced. -/
theorem sampling_fallback_greedy (draw : Nat → Pdf → Option Nat) (pdfs : List Pdf)
    (r : Nat) (hr : r < pdfs.length) (hfail : draw r pdfs[r] = none) :
    (stepChars draw pdfs).length = pdfs.length ∧
    (stepChars draw pdfs)[r]? = some (argmaxIdx pdfs[r]) ∧
    ∀ r2 : Fin pdfs.length, ∀ c, draw r2.val (pdfs.get r2) = some c →
      (stepChars draw pdfs)[r2.val]? = some c := by
  refine ⟨stepChars_length draw pdfs, ?_, ?_⟩
  · rw [stepChars, stepCharsAux_idx draw 0 pdfs r, List.getElem?_eq_getElem hr]
    simp only [Option.map_some', Nat.zero_add]
    simp [chooseChar, hfail]
  · intro r2 c hc
    rw [List.get_eq_getElem] at hc
    rw [stepChars, stepCharsAux_idx draw 0 pdfs r2.val,
      List.getElem?_eq_getElem r2.isLt]
    simp only [Option.map_some', Nat.zero_add]
    simp [chooseChar, hc]

/-- Witness for C7: row 0's draw fails and falls back to the greedy argmax,
row 1's draw succeeds and keeps its drawn symbol 1. -/
theorem sampling_fallback_greedy_witness :
    (stepChars drawW pdfsW).length = pdfsW.length ∧
    (stepChars drawW pdfsW)[0]? = some (argmaxIdx (pdfsW.getD 0 [])) ∧
    (stepChars drawW pdfsW)[1]? = some 1 := by
  have h := sampling_fallback_greedy drawW pdfsW 0 (by decide) (by simp [drawW])
  refine ⟨h.1, by simpa using h.2.1, ?_⟩
  exact h.2.2 ⟨1, by decide⟩ 1 (by simp [drawW])

end Theanets
